import Mathlib

/-!
Verification of the eplot-data-compiler metadata-extraction and
series-consolidation pipeline (`src/main.rs`).

The Rust program is embedded shallowly: strings are `List Char` / `String`,
the three regular expressions (`title_re`, `tag_re`, `desc_re`, `yyyymm_re`)
are modelled by executable leftmost-match scanners with the same semantics on
the concrete patterns, the SQLite tables are lists of row structures, and the
nondeterministic `HashMap` iteration order of the series-insertion loop is an
explicit parameter constrained to be a permutation of the map entries.
Whitespace is modelled by `Char.isWhitespace` (space, tab, CR, LF) and the
digit class by ASCII digits; all inputs exercised by the claims stay inside
that fragment.
-/

set_option maxRecDepth 100000

namespace EplotDC

/-- Drop leading whitespace characters (Rust `str::trim_start`). -/
def dropWs : List Char → List Char
  | [] => []
  | c :: cs => if c.isWhitespace then dropWs cs else c :: cs

/-- Drop trailing whitespace characters (Rust `str::trim_end`). -/
def trimRight (l : List Char) : List Char :=
  (dropWs l.reverse).reverse

/-- Trim whitespace from both ends (Rust `str::trim`). -/
def trimList (l : List Char) : List Char :=
  trimRight (dropWs l)

/-- Take characters while the predicate is false; stop at the first hit
(used for an unclosed capture class such as `[^"\n']*`). -/
def takeUntil (p : Char → Bool) : List Char → List Char
  | [] => []
  | c :: cs => if p c then [] else c :: takeUntil p cs

/-- Capture characters up to a required terminator character; `none` when the
terminator is absent (a capture class followed by a mandatory closing char). -/
def takeUntilChar (t : Char) : List Char → Option (List Char)
  | [] => none
  | c :: cs => if c == t then some [] else Option.map (fun r => c :: r) (takeUntilChar t cs)

/-- `startsWithC pat l` : `pat` is an initial segment of `l`. -/
def startsWithC : List Char → List Char → Bool
  | [], _ => true
  | _ :: _, [] => false
  | p :: ps, c :: cs => p == c && startsWithC ps cs

/-- `endsWithC pat l` : `pat` is a final segment of `l`. -/
def endsWithC (pat l : List Char) : Bool :=
  startsWithC pat.reverse l.reverse

/-- Leftmost-match scan: at each position of the text, if the literal `key`
occurs there and the rest of the pattern (`tryM`) matches what follows, return
its capture, otherwise move one character right.  This is the semantics of an
unanchored Rust regex whose pattern starts with the literal `key`. -/
def scanFor (key : List Char) (tryM : List Char → Option (List Char)) :
    List Char → Option (List Char)
  | [] => none
  | c :: cs =>
    if startsWithC key (c :: cs) then
      match tryM ((c :: cs).drop key.length) with
      | some r => some r
      | none => scanFor key tryM cs
    else scanFor key tryM cs

/-- The double-quote character. -/
def qmark : Char := Char.ofNat 34

/-- The single-quote character. -/
def apos : Char := Char.ofNat 39

/-- After the key: `\s*` then a mandatory opening char, then a capture up to a
mandatory closing char (the tail of `title:\s*"([^"]*)"` and of
`tags:\s*\[([^\]]*)\]`). -/
def afterKeyQuoted (openC closeC : Char) (rest : List Char) : Option (List Char) :=
  match dropWs rest with
  | [] => none
  | c :: cs => if c == openC then takeUntilChar closeC cs else none

/-- `title_re = title:\s*"([^"]*)"` applied to the content (first match). -/
def extract_title (content : List Char) : Option (List Char) :=
  scanFor ("title:".data) (afterKeyQuoted qmark qmark) content

/-- `tag_re = tags:\s*\[([^\]]*)\]` applied to the content (first match). -/
def extract_tags (content : List Char) : Option (List Char) :=
  scanFor ("tags:".data) (afterKeyQuoted '[' ']') content

/-- Tail of `desc_re = description:\s*["']?([^"\n']*)` : skip whitespace,
optionally consume one quote, then capture greedily; this always succeeds. -/
def descTry (rest : List Char) : Option (List Char) :=
  let r := dropWs rest
  let r2 := match r with
    | [] => ([] : List Char)
    | c :: cs => if c == qmark || c == apos then cs else c :: cs
  some (takeUntil (fun c => c == qmark || c == '\n' || c == apos) r2)

/-- `desc_re` applied to the content (first match). -/
def extract_description (content : List Char) : Option (List Char) :=
  scanFor ("description:".data) descTry content

/-- `yyyymm_re = \d{6}` : the leftmost position with six consecutive digits
(the first six digits of the leftmost digit run of length at least six). -/
def find6digits : List Char → Option (List Char)
  | [] => none
  | c :: cs =>
    let f := (c :: cs).take 6
    if f.length == 6 && f.all Char.isDigit then some f else find6digits cs

/-- Index of the last space character, `none` when there is no space
(Rust `name.rfind(' ')`). -/
def lastSpaceIdx : List Char → Option Nat
  | [] => none
  | c :: cs =>
    match lastSpaceIdx cs with
    | some i => some (i + 1)
    | none => if c == ' ' then some 0 else none

/-- `clean_series_name` from `src/main.rs`: split at the last space; if the
trimmed text after it consists solely of ASCII digits and dots, return the
trimmed text before it, otherwise return the name unchanged. -/
def clean_series_name (name : String) : String :=
  match lastSpaceIdx name.data with
  | some i =>
    let base := name.data.take i
    let ep := name.data.drop i
    if (trimList ep).all (fun c => c.isDigit || c == '.') then
      String.mk (trimList base)
    else name
  | none => name

/-- Fuel-driven worker for `stripMd`. -/
def stripMdAux : Nat → List Char → List Char
  | 0, l => l
  | n + 1, l =>
    if endsWithC (".md".data) l then stripMdAux n (l.take (l.length - 3)) else l

/-- Rust `trim_end_matches(".md")`: remove every trailing `.md` repetition. -/
def stripMd (l : List Char) : List Char :=
  stripMdAux l.length l

/-- Split on every occurrence of a separator character, keeping empty chunks
(Rust `str::split` on a `char` pattern). -/
def splitOnChar (sep : Char) : List Char → List (List Char)
  | [] => [[]]
  | c :: cs =>
    if c == sep then [] :: splitOnChar sep cs
    else
      match splitOnChar sep cs with
      | h :: t => (c :: h) :: t
      | [] => [[c]]

/-- Split on the newline character, keeping a (possibly empty) final chunk. -/
def splitOnNl (l : List Char) : List (List Char) :=
  splitOnChar '\n' l

/-- Remove one trailing carriage return, as Rust `str::lines` does per line. -/
def stripCr (l : List Char) : List Char :=
  if endsWithC ['\r'] l then l.take (l.length - 1) else l

/-- Rust `str::lines`: split on `\n`, drop a final empty chunk, strip `\r`. -/
def rustLines (l : List Char) : List (List Char) :=
  let parts := splitOnNl l
  let parts := if parts.getLast? = some [] then parts.dropLast else parts
  parts.map stripCr

/-- Consume lines until the second line whose trim equals `---` has been
consumed, returning the remaining lines (the `dash_count` loop). -/
def linesAfterSecondDash : Nat → List (List Char) → List (List Char)
  | _, [] => []
  | cnt, l :: ls =>
    if trimList l = ("---".data) then
      if cnt + 1 == 2 then ls else linesAfterSecondDash (cnt + 1) ls
    else linesAfterSecondDash cnt ls

/-- The body below the second `---` delimiter: each remaining line trimmed and
joined with single spaces, then the whole trimmed. -/
def bodyBelow (content : List Char) : List Char :=
  trimList ((linesAfterSecondDash 0 (rustLines content)).foldl
    (fun acc l => acc ++ trimList l ++ [' ']) [])

/-- The abstract obtained from the `description:` field: the trimmed capture,
or empty when the regex does not match. -/
def descAbstract (content : List Char) : List Char :=
  match extract_description content with
  | some cap => trimList cap
  | none => []

/-- The fallback abstract: the first 200 characters of the body, with `...`
appended when the body exceeds 200 characters. -/
def fallbackAbstract (content : List Char) : List Char :=
  let b := bodyBelow content
  if 200 < b.length then b.take 200 ++ ("...".data) else b

/-- `abstract_text` of one document: the description abstract when nonempty,
otherwise the fallback abstract. -/
def abstractOf (content : List Char) : List Char :=
  let d := descAbstract content
  if d = [] then fallbackAbstract content else d

/-- The title resolved for a filename with at least two `_` segments: the
captured `title:` field when present, else the first filename segment. -/
def resolvedTitle (filename content : String) : String :=
  match extract_title content.data with
  | some cap => String.mk cap
  | none => String.mk ((splitOnChar '_' filename.data).headD [])

/-- The `(series_name, ep_num)` pair of one document: with at least two `_`
segments the cleaned resolved title and the second segment stripped of `.md`,
otherwise the whole filename and an empty episode number. -/
def seriesAndNum (filename content : String) : String × String :=
  let parts := splitOnChar '_' filename.data
  if 2 ≤ parts.length then
    (clean_series_name (resolvedTitle filename content),
     String.mk (stripMd (parts.getD 1 [])))
  else (filename, "")

/-- The raw (uncleaned) series name of a document — the resolved title when
the filename has at least two `_` segments, else the whole filename; this is
the value `clean_series_name` is applied to inside `seriesAndNum`. -/
def rawSeriesName (filename content : String) : String :=
  if 2 ≤ (splitOnChar '_' filename.data).length then resolvedTitle filename content
  else filename

/-- The `(ep_year, ep_month)` pair: six consecutive digits inside the captured
`tags: [...]` list, split four/two; empty when absent. -/
def epYearMonth (content : List Char) : String × String :=
  match extract_tags content with
  | some cap =>
    match find6digits cap with
    | some y =>
      if y.length == 6 then (String.mk (y.take 4), String.mk (y.drop 4))
      else ("", "")
    | none => ("", "")
  | none => ("", "")

/-- The per-document extraction record pushed onto the `episodes` vector. -/
structure Extracted where
  series_name : String
  ep_num : String
  ep_year : String
  ep_month : String
  abstract_text : String
  deriving DecidableEq, Repr

/-- Metadata extraction for one document (the per-file part of `main`). -/
def processFile (filename content : String) : Extracted :=
  let sn := seriesAndNum filename content
  let ym := epYearMonth content.data
  ⟨sn.1, sn.2, ym.1, ym.2, String.mk (abstractOf content.data)⟩

/-- Lexicographic comparison of character lists by codepoint (for UTF-8 this
is exactly byte order, the order `md_files.sort()` uses). -/
def leName : List Char → List Char → Bool
  | [], _ => true
  | _ :: _, [] => false
  | a :: as, b :: bs =>
    if a < b then true
    else if b < a then false
    else leName as bs

/-- Ordering of input files by filename. -/
def fileLe (a b : String × String) : Prop := leName a.1.data b.1.data = true

instance : DecidableRel fileLe :=
  fun a b => inferInstanceAs (Decidable (leName a.1.data b.1.data = true))

theorem leName_total : ∀ a b : List Char, leName a b = true ∨ leName b a = true
  | [], _ => Or.inl rfl
  | _ :: _, [] => Or.inr rfl
  | a :: as, b :: bs => by
    by_cases h1 : a < b
    · left
      simp [leName, h1]
    · by_cases h2 : b < a
      · right
        simp [leName, h2]
      · rcases leName_total as bs with h | h
        · left
          simp [leName, h1, h2, h]
        · right
          simp [leName, h2, h1, h]

theorem leName_trans : ∀ a b c : List Char,
    leName a b = true → leName b c = true → leName a c = true
  | [], _, _ => by simp [leName]
  | a :: as, [], _ => by simp [leName]
  | _ :: _, _ :: _, [] => by simp [leName]
  | a :: as, b :: bs, c :: cs => by
    intro hab hbc
    by_cases h1 : a < b
    · by_cases h2 : b < c
      · simp [leName, lt_trans h1 h2]
      · by_cases h3 : c < b
        · simp [leName, hbc, h2, h3] at hbc
        · have hbc' : b = c := le_antisymm (not_lt.mp h3) (not_lt.mp h2)
          simp [leName, hbc' ▸ h1]
    · by_cases h1' : b < a
      · simp [leName, h1, h1'] at hab
      · have hab' : a = b := le_antisymm (not_lt.mp h1') (not_lt.mp h1)
        subst hab'
        simp only [leName, if_neg (lt_irrefl a)] at hab
        by_cases h2 : a < c
        · simp [leName, h2]
        · by_cases h3 : c < a
          · simp [leName, h2, h3] at hbc
          · simp only [leName, if_neg h2, if_neg h3] at hbc ⊢
            exact leName_trans as bs cs hab hbc

instance : IsTotal (String × String) fileLe :=
  ⟨fun a b => leName_total a.1.data b.1.data⟩

instance : IsTrans (String × String) fileLe :=
  ⟨fun a b c h1 h2 => leName_trans a.1.data b.1.data c.1.data h1 h2⟩

/-- `md_files.sort()`: the input files in ascending filename order. -/
def sortFiles (files : List (String × String)) : List (String × String) :=
  List.insertionSort fileLe files

/-- Extraction applied to every file, in order. -/
def extractAll (files : List (String × String)) : List Extracted :=
  files.map (fun f => processFile f.1 f.2)

/-- `series_map.entry(k).or_insert(v)`: keep an existing entry, else append. -/
def insertSeries (m : List (String × String × String)) (k yv mv : String) :
    List (String × String × String) :=
  if m.any (fun x => x.1 == k) then m else m ++ [(k, yv, mv)]

/-- The first consolidation pass over the extracted episodes. -/
def buildAux (m : List (String × String × String)) :
    List Extracted → List (String × String × String)
  | [] => m
  | e :: es => buildAux (insertSeries m e.series_name e.ep_year e.ep_month) es

/-- The series map of a run: one entry per distinct extracted series name,
holding the year and month of its first episode. -/
def buildSeriesMap (es : List Extracted) : List (String × String × String) :=
  buildAux [] es

/-- The series map produced by a full run over the given files. -/
def seriesMapOf (files : List (String × String)) : List (String × String × String) :=
  buildSeriesMap (extractAll (sortFiles files))

/-- One row of the `series_data` table. -/
structure SeriesRow where
  id : Nat
  series_name : String
  series_year : String
  series_month : String
  deriving DecidableEq, Repr

/-- One row of the `ep_data` table. -/
structure EpRow where
  id : Nat
  ep_name : String
  ep_num : String
  ep_year : String
  ep_month : String
  series_id : Nat
  abstract : String
  deriving DecidableEq, Repr

/-- Insert the series map entries in iteration order `o`, assigning
auto-increment identifiers from `n` upward. -/
def seriesTable (n : Nat) : List (String × String × String) → List SeriesRow
  | [] => []
  | (k, y, m) :: rest => ⟨n, k, y, m⟩ :: seriesTable (n + 1) rest

/-- `SELECT id FROM series_data WHERE series_name = ?` with `query_row`:
the identifier of the first row with the given name. -/
def lookupSeries (t : List SeriesRow) (name : String) : Option Nat :=
  Option.map (fun r => r.id) (t.find? (fun r => r.series_name == name))

/-- The episode-insertion loop: for each extracted episode re-clean its stored
name, look the series identifier up, and insert; a lookup miss aborts. -/
def insertEps (st : List SeriesRow) : Nat → List Extracted → Option (List EpRow)
  | _, [] => some []
  | n, e :: es =>
    match lookupSeries st (clean_series_name e.series_name) with
    | none => none
    | some sid =>
      match insertEps st (n + 1) es with
      | none => none
      | some rest =>
        some (⟨n, e.series_name, e.ep_num, e.ep_year, e.ep_month, sid, e.abstract_text⟩ :: rest)

/-- A full run: sort the files, extract, insert the series map in iteration
order `o` (a permutation of the map), then insert every episode.  `none` when
an episode's series lookup misses. -/
def runTables (files : List (String × String)) (o : List (String × String × String)) :
    Option (List SeriesRow × List EpRow) :=
  match insertEps (seriesTable 1 o) 1 (extractAll (sortFiles files)) with
  | none => none
  | some eps => some (seriesTable 1 o, eps)

/-- A series row without its auto-increment identifier. -/
def stripSeries (r : SeriesRow) : String × String × String :=
  (r.series_name, r.series_year, r.series_month)

/-- Episode rows with the `series_id` foreign key dereferenced to the content
of the series row it points at (and the episode identifier dropped). -/
def derefEps (st : List SeriesRow) (eps : List EpRow) :
    List (String × String × String × String × Option (String × String × String) × String) :=
  eps.map (fun e =>
    (e.ep_name, e.ep_num, e.ep_year, e.ep_month,
     Option.map stripSeries (st.find? (fun s => s.id == e.series_id)), e.abstract))

/-- Six consecutive digits occur at position `i`. -/
def sixAt (l : List Char) (i : Nat) : Prop :=
  i + 6 ≤ l.length ∧ ((l.drop i).take 6).all Char.isDigit = true

instance (l : List Char) (i : Nat) : Decidable (sixAt l i) :=
  inferInstanceAs (Decidable (_ ∧ _))

/-- Lengths of the maximal digit runs of a character list (worker). -/
def runsAux : List Char → Nat → List Nat
  | [], 0 => []
  | [], n + 1 => [n + 1]
  | c :: cs, n =>
    if c.isDigit then runsAux cs (n + 1)
    else if n == 0 then runsAux cs 0 else n :: runsAux cs 0

/-- Modelled from the spec: the bracket content has a maximal run of exactly
six consecutive digits (the condition the claim attaches to year/month
extraction). -/
def hasExactSixRun (l : List Char) : Bool :=
  (runsAux l 0).any (fun n => n == 6)

/-! ### Development lemmas: trimming and `clean_series_name` -/

theorem dropWs_cons_ws {c : Char} (h : c.isWhitespace = true) (l : List Char) :
    dropWs (c :: l) = dropWs l := by
  simp [dropWs, h]

theorem trimList_space_cons (l : List Char) : trimList (' ' :: l) = trimList l := by
  simp [trimList, dropWs_cons_ws (by decide : (' ' : Char).isWhitespace = true)]

theorem dropWs_append (a b : List Char) :
    dropWs (a ++ b) = if dropWs a = [] then dropWs b else dropWs a ++ b := by
  induction a with
  | nil => simp [dropWs]
  | cons c cs ih =>
    by_cases h : c.isWhitespace
    · simpa [dropWs, h] using ih
    · simp [dropWs, h]

theorem trimRight_append_ws (l : List Char) {c : Char} (h : c.isWhitespace = true) :
    trimRight (l ++ [c]) = trimRight l := by
  simp [trimRight, dropWs_cons_ws h]

theorem trimList_append_space (l : List Char) : trimList (l ++ [' ']) = trimList l := by
  unfold trimList
  rw [dropWs_append]
  by_cases h : dropWs l = []
  · simp [h, trimRight, dropWs]
  · rw [if_neg h, trimRight_append_ws _ (by decide : (' ' : Char).isWhitespace = true)]

theorem lastSpaceIdx_of_not_mem {l : List Char} (h : ' ' ∉ l) : lastSpaceIdx l = none := by
  induction l with
  | nil => rfl
  | cons c cs ih =>
    have hc : ¬ (c == ' ') = true := by
      simp only [beq_iff_eq]
      exact fun hce => h (hce ▸ List.mem_cons_self c cs)
    have hcs : ' ' ∉ cs := fun hm => h (List.mem_cons_of_mem _ hm)
    simp [lastSpaceIdx, ih hcs, hc]

theorem lastSpaceIdx_last (pre post : List Char) (h : ' ' ∉ post) :
    lastSpaceIdx (pre ++ ' ' :: post) = some pre.length := by
  induction pre with
  | nil => simp [lastSpaceIdx, lastSpaceIdx_of_not_mem h]
  | cons c cs ih => simp [lastSpaceIdx, ih]

theorem clean_at_last_space (pre post : List Char) (hpost : ' ' ∉ post) :
    clean_series_name (String.mk (pre ++ ' ' :: post)) =
      if (trimList post).all (fun c => c.isDigit || c == '.') then String.mk (trimList pre)
      else String.mk (pre ++ ' ' :: post) := by
  have hdata : (String.mk (pre ++ ' ' :: post)).data = pre ++ ' ' :: post := rfl
  unfold clean_series_name
  rw [hdata, lastSpaceIdx_last pre post hpost]
  have htake : (pre ++ ' ' :: post).take pre.length = pre := by simp
  have hdrop : (pre ++ ' ' :: post).drop pre.length = ' ' :: post := by simp
  simp only [htake, hdrop, trimList_space_cons]

theorem clean_of_no_space {l : List Char} (h : ' ' ∉ l) :
    clean_series_name (String.mk l) = String.mk l := by
  unfold clean_series_name
  rw [show (String.mk l).data = l from rfl, lastSpaceIdx_of_not_mem h]

/-! ### Development lemmas: the six-digit search -/

theorem sixAt_cons_succ (c : Char) (cs : List Char) (i : Nat) :
    sixAt (c :: cs) (i + 1) ↔ sixAt cs i := by
  unfold sixAt
  rw [List.drop_succ_cons, List.length_cons]
  constructor
  · rintro ⟨h1, h2⟩; exact ⟨by omega, h2⟩
  · rintro ⟨h1, h2⟩; exact ⟨by omega, h2⟩

theorem sixAt_zero_iff (l : List Char) :
    sixAt l 0 ↔ (((l.take 6).length == 6) && (l.take 6).all Char.isDigit) = true := by
  unfold sixAt
  simp only [List.drop_zero, Bool.and_eq_true, beq_iff_eq, List.length_take]
  constructor
  · rintro ⟨h1, h2⟩; exact ⟨by omega, h2⟩
  · rintro ⟨h1, h2⟩; exact ⟨by omega, h2⟩

theorem find6digits_none_iff (l : List Char) :
    find6digits l = none ↔ ∀ i, ¬ sixAt l i := by
  induction l with
  | nil =>
    constructor
    · intro _ i hsix
      have h1 := hsix.1
      simp only [List.length_nil] at h1
      omega
    · intro _; rfl
  | cons c cs ih =>
    by_cases h : ((((c :: cs).take 6).length == 6) && ((c :: cs).take 6).all Char.isDigit) = true
    · simp only [find6digits, h, if_true]
      constructor
      · intro hfalse; exact absurd hfalse (by simp)
      · intro hall; exact absurd ((sixAt_zero_iff (c :: cs)).mpr h) (hall 0)
    · rw [show find6digits (c :: cs) = find6digits cs by
        simp only [find6digits]; rw [if_neg h], ih]
      constructor
      · intro hcs i
        match i with
        | 0 => exact fun hs => h ((sixAt_zero_iff (c :: cs)).mp hs)
        | j + 1 => exact fun hs => hcs j ((sixAt_cons_succ c cs j).mp hs)
      · intro hall i hs
        exact hall (i + 1) ((sixAt_cons_succ c cs i).mpr hs)

theorem find6digits_min (l : List Char) (i : Nat) (hi : sixAt l i)
    (hmin : ∀ j, j < i → ¬ sixAt l j) :
    find6digits l = some ((l.drop i).take 6) := by
  induction l generalizing i with
  | nil =>
    have h1 := hi.1
    simp only [List.length_nil] at h1
    omega
  | cons c cs ih =>
    match i with
    | 0 =>
      have h0 := (sixAt_zero_iff (c :: cs)).mp hi
      rw [show find6digits (c :: cs) = some ((c :: cs).take 6) by
        simp only [find6digits]; rw [if_pos h0], List.drop_zero]
    | j + 1 =>
      have hnot0 : ¬ sixAt (c :: cs) 0 := hmin 0 (Nat.succ_pos j)
      have h0 : ¬ ((((c :: cs).take 6).length == 6) && ((c :: cs).take 6).all Char.isDigit) = true :=
        fun hb => hnot0 ((sixAt_zero_iff (c :: cs)).mpr hb)
      rw [show find6digits (c :: cs) = find6digits cs by
        simp only [find6digits]; rw [if_neg h0]]
      rw [List.drop_succ_cons]
      exact ih j ((sixAt_cons_succ c cs j).mp hi)
        (fun k hk hs => hmin (k + 1) (by omega) ((sixAt_cons_succ c cs k).mpr hs))

/-! ### Development lemmas: `processFile` projections and the abstract -/

theorem processFile_series_name (fn c : String) :
    (processFile fn c).series_name = (seriesAndNum fn c).1 := rfl

theorem processFile_ep_num (fn c : String) :
    (processFile fn c).ep_num = (seriesAndNum fn c).2 := rfl

theorem processFile_ep_year (fn c : String) :
    (processFile fn c).ep_year = (epYearMonth c.data).1 := rfl

theorem processFile_ep_month (fn c : String) :
    (processFile fn c).ep_month = (epYearMonth c.data).2 := rfl

theorem processFile_abstract (fn c : String) :
    (processFile fn c).abstract_text = String.mk (abstractOf c.data) := rfl

theorem epYearMonth_tags_some {content cap : List Char} (h : extract_tags content = some cap) :
    epYearMonth content =
      match find6digits cap with
      | some y => if y.length == 6 then (String.mk (y.take 4), String.mk (y.drop 4)) else ("", "")
      | none => ("", "") := by
  unfold epYearMonth
  rw [h]

theorem abstractOf_desc_empty {content : List Char} (h : descAbstract content = []) :
    abstractOf content = fallbackAbstract content := by
  unfold abstractOf
  rw [h]
  simp

theorem abstractOf_desc_nonempty {content cap : List Char}
    (h : extract_description content = some cap) (hne : trimList cap ≠ []) :
    abstractOf content = trimList cap := by
  unfold abstractOf descAbstract
  rw [h]
  simp [hne]

/-! ### Claims C3, C4, C5, C6, C7, C10 -/

/-- C3 (amended): when the content has a `tags: [...]` field, `ep_year` and
`ep_month` come from the first six digits found at the leftmost position of
the bracket content where six consecutive digits occur — runs longer than six
are not excluded; when no six consecutive digits occur anywhere in the bracket
content, both fields are empty. -/
theorem claim_C3 (filename content : String) (cap : List Char)
    (h : extract_tags content.data = some cap) :
    ((∀ i, ¬ sixAt cap i) →
      (processFile filename content).ep_year = "" ∧
      (processFile filename content).ep_month = "") ∧
    (∀ i, sixAt cap i → (∀ j, j < i → ¬ sixAt cap j) →
      (processFile filename content).ep_year = String.mk ((cap.drop i).take 4) ∧
      (processFile filename content).ep_month = String.mk (((cap.drop i).take 6).drop 4)) := by
  constructor
  · intro hnone
    have hfind : find6digits cap = none := (find6digits_none_iff cap).mpr hnone
    have hpair : epYearMonth content.data = ("", "") := by
      rw [epYearMonth_tags_some h, hfind]
    rw [processFile_ep_year, processFile_ep_month, hpair]
    exact ⟨rfl, rfl⟩
  · intro i hi hmin
    have hfind := find6digits_min cap i hi hmin
    have hlen : ((((cap.drop i).take 6)).length == 6) = true := by
      have h1 := hi.1
      simp only [beq_iff_eq, List.length_take, List.length_drop]
      omega
    have hpair : epYearMonth content.data =
        (String.mk (((cap.drop i).take 6).take 4), String.mk (((cap.drop i).take 6).drop 4)) := by
      rw [epYearMonth_tags_some h, hfind]
      show (if ((((cap.drop i).take 6)).length == 6) = true then
          (String.mk (((cap.drop i).take 6).take 4), String.mk (((cap.drop i).take 6).drop 4))
        else ("", "")) = _
      rw [if_pos hlen]
    rw [processFile_ep_year, processFile_ep_month, hpair]
    refine ⟨?_, rfl⟩
    have htt : ((cap.drop i).take 6).take 4 = (cap.drop i).take 4 := by
      rw [List.take_take]
      norm_num
    show String.mk (((cap.drop i).take 6).take 4) = String.mk ((cap.drop i).take 4)
    rw [htt]

/-- C3 witness: the spec example tags list `[tech, 202403, news]` has its six
digits at position 6, giving year 2024 and month 03. -/
theorem witness_C3 :
    ((processFile "A_01.md" "tags: [tech, 202403, news]").ep_year =
        String.mk ((("tech, 202403, news".data).drop 6).take 4) ∧
      (processFile "A_01.md" "tags: [tech, 202403, news]").ep_month =
        String.mk (((("tech, 202403, news".data).drop 6).take 6).drop 4)) ∧
    (processFile "A_01.md" "tags: [tech, 202403, news]").ep_year = "2024" ∧
    (processFile "A_01.md" "tags: [tech, 202403, news]").ep_month = "03" :=
  ⟨(claim_C3 "A_01.md" "tags: [tech, 202403, news]" ("tech, 202403, news".data)
      (by decide)).2 6 (by decide) (by decide), by decide, by decide⟩

/-- C3 counterexample: the tag list `[7654321]` contains a digit run of length
seven and hence no run of exactly six digits, yet the code extracts
`ep_year = "7654"`, `ep_month = "32"` instead of leaving both fields empty. -/
theorem counterexample_C3 :
    extract_tags ("tags: [7654321]".data) = some ("7654321".data) ∧
    hasExactSixRun ("7654321".data) = false ∧
    (processFile "A_01.md" "tags: [7654321]").ep_year = "7654" ∧
    (processFile "A_01.md" "tags: [7654321]").ep_month = "32" ∧
    ("7654" : String) ≠ "" := by decide

/-- C4 (amended): the 200-character cap applies exactly to the body-fallback
abstract (taken when the description field is absent or trims to empty): that
abstract is the body when the body has at most 200 characters, and the first
200 characters followed by `...` (203 characters in all) when the body is
longer.  A nonempty description abstract is not capped. -/
theorem claim_C4 (filename content : String) (h : descAbstract content.data = []) :
    (processFile filename content).abstract_text.length ≤ 203 ∧
    (200 < (bodyBelow content.data).length →
      (processFile filename content).abstract_text =
        String.mk ((bodyBelow content.data).take 200 ++ ("...".data)) ∧
      (processFile filename content).abstract_text.length = 203) ∧
    ((bodyBelow content.data).length ≤ 200 →
      (processFile filename content).abstract_text = String.mk (bodyBelow content.data) ∧
      (processFile filename content).abstract_text.length ≤ 200) := by
  rw [processFile_abstract, abstractOf_desc_empty h]
  unfold fallbackAbstract
  by_cases hb : 200 < (bodyBelow content.data).length
  · rw [if_pos hb]
    have hlen : (String.mk ((bodyBelow content.data).take 200 ++ ("...".data))).length = 203 := by
      show ((bodyBelow content.data).take 200 ++ ("...".data)).length = 203
      rw [List.length_append, List.length_take]
      have : ("...".data).length = 3 := by decide
      omega
    exact ⟨by omega, fun _ => ⟨rfl, hlen⟩, fun hle => absurd hb (by omega)⟩
  · rw [if_neg hb]
    push_neg at hb
    have hlen : (String.mk (bodyBelow content.data)).length = (bodyBelow content.data).length := rfl
    exact ⟨by omega, fun hgt => absurd hgt (by omega), fun _ => ⟨rfl, by omega⟩⟩

/-- C4 witness: a document whose body below the second `---` is 205 characters
long gets the 200-character prefix plus `...`, 203 characters in all. -/
theorem witness_C4 :
    (processFile "A_01.md" ("---\n---\n" ++ String.mk (List.replicate 205 'b'))).abstract_text =
      String.mk ((bodyBelow ("---\n---\n" ++ String.mk (List.replicate 205 'b')).data).take 200 ++
        ("...".data)) ∧
    (processFile "A_01.md" ("---\n---\n" ++ String.mk (List.replicate 205 'b'))).abstract_text.length = 203 :=
  (claim_C4 "A_01.md" ("---\n---\n" ++ String.mk (List.replicate 205 'b')) (by decide)).2.1
    (by decide)

/-- C4 counterexample: a one-line description field of 201 characters is used
verbatim — the resulting abstract has 201 characters, exceeding 200, and no
`...` marker is appended; the claim's universal 200-character cap is false. -/
theorem counterexample_C4 :
    (processFile "A_01.md" ("description: " ++ String.mk (List.replicate 201 'a'))).abstract_text.length = 201 ∧
    ¬ (processFile "A_01.md" ("description: " ++ String.mk (List.replicate 201 'a'))).abstract_text.length ≤ 200 ∧
    endsWithC ("...".data)
      ((processFile "A_01.md" ("description: " ++ String.mk (List.replicate 201 'a'))).abstract_text.data) = false := by
  refine ⟨by decide, by decide, by decide⟩

/-- C5 (amended): when the content has a `description:` field whose captured
text trims to a nonempty string, the abstract is exactly that trimmed capture;
a capture that trims to empty instead falls back to the body-derived abstract. -/
theorem claim_C5 (filename content : String) (cap : List Char)
    (h : extract_description content.data = some cap) (hne : trimList cap ≠ []) :
    (processFile filename content).abstract_text = String.mk (trimList cap) := by
  rw [processFile_abstract, abstractOf_desc_nonempty h hne]

/-- C5 witness: the spec example `description: "A short summary"` is used
verbatim as the abstract. -/
theorem witness_C5 :
    (processFile "A_01.md" "description: \"A short summary\"").abstract_text =
      String.mk (trimList ("A short summary".data)) ∧
    (processFile "A_01.md" "description: \"A short summary\"").abstract_text = "A short summary" :=
  ⟨claim_C5 "A_01.md" "description: \"A short summary\"" ("A short summary".data)
      (by decide) (by decide), by decide⟩

/-- C5 counterexample: a present but empty description field
(`description: ""`) is captured as the empty string, yet the abstract is the
body fallback `"Body here"`, not the captured (empty) text — the claim fails
for documents whose description value is empty. -/
theorem counterexample_C5 :
    extract_description (("description: \"\"\n---\n---\nBody here").data) = some [] ∧
    trimList ([] : List Char) = [] ∧
    (processFile "A_01.md" "description: \"\"\n---\n---\nBody here").abstract_text = "Body here" ∧
    ("Body here" : String) ≠ "" := by decide

/-- C6 (amended): the `title:` lookup — and the cleaning step — are applied
only when the filename has at least two `_`-delimited segments; with fewer
segments the whole filename is used as the series name, uncleaned, with an
empty episode number, even when the content contains a title field.  When the
lookup runs, a captured title is used, else the first filename segment. -/
theorem claim_C6 (filename content : String) :
    (2 ≤ (splitOnChar '_' filename.data).length →
      (processFile filename content).series_name =
        clean_series_name (resolvedTitle filename content)) ∧
    ((splitOnChar '_' filename.data).length < 2 →
      (processFile filename content).series_name = filename ∧
      (processFile filename content).ep_num = "") ∧
    (∀ cap, extract_title content.data = some cap →
      resolvedTitle filename content = String.mk cap) ∧
    (extract_title content.data = none →
      resolvedTitle filename content = String.mk ((splitOnChar '_' filename.data).headD [])) := by
  refine ⟨fun h2 => ?_, fun h1 => ?_, fun cap hc => ?_, fun hn => ?_⟩
  · rw [processFile_series_name]
    simp only [seriesAndNum]
    rw [if_pos h2]
  · have hn2 : ¬ 2 ≤ (splitOnChar '_' filename.data).length := by omega
    rw [processFile_series_name, processFile_ep_num]
    simp only [seriesAndNum]
    rw [if_neg hn2]
    exact ⟨rfl, rfl⟩
  · unfold resolvedTitle
    rw [hc]
  · unfold resolvedTitle
    rw [hn]

/-- C6 witness: `A_01.md` (two segments) uses the cleaned resolved title, while
`ShowA.md` (one segment) keeps the whole filename and an empty episode number. -/
theorem witness_C6 :
    ((processFile "A_01.md" "title: \"T\"").series_name =
      clean_series_name (resolvedTitle "A_01.md" "title: \"T\"")) ∧
    ((processFile "ShowA.md" "title: \"T\"").series_name = "ShowA.md" ∧
      (processFile "ShowA.md" "title: \"T\"").ep_num = "") :=
  ⟨(claim_C6 "A_01.md" "title: \"T\"").1 (by decide),
   (claim_C6 "ShowA.md" "title: \"T\"").2.1 (by decide)⟩

/-- C6 counterexample: for the single-segment filename `ShowA.md` with content
containing `title: "Other"`, the code uses the whole filename `ShowA.md` as the
series name, ignoring the title field the claim says must win. -/
theorem counterexample_C6 :
    Option.map String.mk (extract_title ("title: \"Other\"".data)) = some "Other" ∧
    clean_series_name "Other" = "Other" ∧
    (processFile "ShowA.md" "title: \"Other\"").series_name = "ShowA.md" ∧
    ("ShowA.md" : String) ≠ "Other" := by decide

/-- C7 (amended): writing a name with a space as `pre ++ ' ' :: post` with no
space in `post` (so `post` is the text after the last space), the result is
the both-ends-trimmed `pre` exactly when `post` — after trimming surrounding
whitespace — consists solely of ASCII digits and dots (vacuously so when
empty), and the name unchanged otherwise; names with no space are unchanged;
the three spec examples hold. -/
theorem claim_C7 :
    (∀ pre post : List Char, ' ' ∉ post →
      ((trimList post).all (fun c => c.isDigit || c == '.') = true →
        clean_series_name (String.mk (pre ++ ' ' :: post)) = String.mk (trimList pre)) ∧
      ((trimList post).all (fun c => c.isDigit || c == '.') = false →
        clean_series_name (String.mk (pre ++ ' ' :: post)) = String.mk (pre ++ ' ' :: post))) ∧
    (∀ l : List Char, ' ' ∉ l → clean_series_name (String.mk l) = String.mk l) ∧
    clean_series_name "Foo Bar 12" = "Foo Bar" ∧
    clean_series_name "Foo Bar 12.5" = "Foo Bar" ∧
    clean_series_name "Foo Bar Two" = "Foo Bar Two" := by
  refine ⟨fun pre post hpost => ⟨fun ht => ?_, fun hf => ?_⟩,
    fun l hl => clean_of_no_space hl, by decide, by decide, by decide⟩
  · rw [clean_at_last_space pre post hpost, if_pos ht]
  · rw [clean_at_last_space pre post hpost, if_neg (by simp [hf])]

/-- C7 witness: `Foo Bar 12` splits as `Foo Bar` / `12`, the trailing token is
all digits, and the cleaned name is the trimmed `Foo Bar`. -/
theorem witness_C7 :
    clean_series_name (String.mk ("Foo Bar".data ++ ' ' :: "12".data)) =
      String.mk (trimList ("Foo Bar".data)) :=
  ((claim_C7.1 ("Foo Bar".data) ("12".data) (by decide)).1 (by decide))

/-- C7 counterexample: in `Foo 12\t` the text after the last space is `12\t`,
which is not made solely of digits and dots, so the claim demands the name be
returned unchanged; the code trims the token to `12` first and returns `Foo`. -/
theorem counterexample_C7 :
    lastSpaceIdx ("Foo 12\t".data) = some 3 ∧
    (("Foo 12\t".data).drop 4).all (fun c => c.isDigit || c == '.') = false ∧
    clean_series_name "Foo 12\t" = "Foo" ∧
    ("Foo" : String) ≠ "Foo 12\t" := by decide

/-- C10 (amended): for a string ending in a space the empty token after the
last space passes the all-digits-or-dots check vacuously, and the result is
the string trimmed of surrounding whitespace on both ends — not only trailing
whitespace as originally claimed. -/
theorem claim_C10 (s : List Char) (h : s.getLast? = some ' ') :
    clean_series_name (String.mk s) = String.mk (trimList s) := by
  have hne : s ≠ [] := by
    intro he
    rw [he] at h
    simp at h
  have hlast : s.getLast hne = ' ' := by
    rw [List.getLast?_eq_getLast s hne] at h
    exact Option.some_injective _ h
  obtain ⟨pre, hpre⟩ : ∃ pre, s = pre ++ [' '] :=
    ⟨s.dropLast, by
      conv_lhs => rw [← List.dropLast_append_getLast hne]
      rw [hlast]⟩
  subst hpre
  rw [clean_at_last_space pre [] (by simp), if_pos (by decide), trimList_append_space]

/-- C10 witness: `Foo ` ends in a space and cleans to the trimmed `Foo`. -/
theorem witness_C10 :
    clean_series_name (String.mk ("Foo ".data)) = String.mk (trimList ("Foo ".data)) :=
  claim_C10 ("Foo ".data) (by decide)

/-- C10 counterexample: ` Foo ` ends in a space; trimming only trailing
whitespace would give ` Foo`, but the code also trims leading whitespace and
returns `Foo`. -/
theorem counterexample_C10 :
    (" Foo ".data).getLast? = some ' ' ∧
    trimRight (" Foo ".data) = (" Foo".data) ∧
    clean_series_name " Foo " = "Foo" ∧
    ("Foo" : String) ≠ " Foo" := by decide

/-! ### Development lemmas: the consolidation map -/

theorem insertSeries_keys_mem (m : List (String × String × String)) (nm yv mv : String)
    (x : String) :
    x ∈ (insertSeries m nm yv mv).map Prod.fst ↔ x ∈ m.map Prod.fst ∨ x = nm := by
  unfold insertSeries
  by_cases h : m.any (fun e => e.1 == nm) = true
  · rw [if_pos h]
    constructor
    · exact Or.inl
    · rintro (hx | rfl)
      · exact hx
      · rcases List.any_eq_true.mp h with ⟨e, he, heq⟩
        exact List.mem_map.mpr ⟨e, he, beq_iff_eq.mp heq⟩
  · rw [if_neg h]
    simp [List.map_append]

theorem insertSeries_sub {m : List (String × String × String)} {x} (nm yv mv : String)
    (hx : x ∈ m) : x ∈ insertSeries m nm yv mv := by
  unfold insertSeries
  split
  · exact hx
  · exact List.mem_append_left _ hx

theorem insertSeries_keys_nodup {m : List (String × String × String)} (nm yv mv : String)
    (h : (m.map Prod.fst).Nodup) : ((insertSeries m nm yv mv).map Prod.fst).Nodup := by
  unfold insertSeries
  by_cases hc : m.any (fun e => e.1 == nm) = true
  · rw [if_pos hc]
    exact h
  · rw [if_neg hc, List.map_append, List.nodup_append]
    refine ⟨h, List.nodup_singleton nm, fun x hx hx2 => ?_⟩
    have hxnm : x = nm := by simpa using hx2
    subst hxnm
    rcases List.mem_map.mp hx with ⟨e, he, hee⟩
    exact hc (List.any_eq_true.mpr ⟨e, he, beq_iff_eq.mpr hee⟩)

theorem buildAux_keys_nodup : ∀ (es : List Extracted) (m : List (String × String × String)),
    (m.map Prod.fst).Nodup → ((buildAux m es).map Prod.fst).Nodup
  | [], _, h => h
  | _ :: es, _, h => buildAux_keys_nodup es _ (insertSeries_keys_nodup _ _ _ h)

theorem buildAux_sub : ∀ (es : List Extracted) (m : List (String × String × String)) (x),
    x ∈ m → x ∈ buildAux m es
  | [], _, _, hx => hx
  | _ :: es, _, x, hx => buildAux_sub es _ x (insertSeries_sub _ _ _ hx)

theorem buildAux_keys_mem : ∀ (es : List Extracted) (m : List (String × String × String))
    (k : String), k ∈ (buildAux m es).map Prod.fst ↔
      k ∈ m.map Prod.fst ∨ ∃ e ∈ es, e.series_name = k
  | [], m, k => by simp [buildAux]
  | e :: es, m, k => by
    rw [show buildAux m (e :: es) = buildAux (insertSeries m e.series_name e.ep_year e.ep_month) es
        from rfl,
      buildAux_keys_mem es _ k, insertSeries_keys_mem]
    constructor
    · rintro ((h | rfl) | ⟨e', he', rfl⟩)
      · exact Or.inl h
      · exact Or.inr ⟨e, List.mem_cons_self e es, rfl⟩
      · exact Or.inr ⟨e', List.mem_cons_of_mem e he', rfl⟩
    · rintro (h | ⟨e', he', rfl⟩)
      · exact Or.inl (Or.inl h)
      · rcases List.mem_cons.mp he' with rfl | h'
        · exact Or.inl (Or.inr rfl)
        · exact Or.inr ⟨e', h', rfl⟩

theorem buildAux_first : ∀ (es : List Extracted) (m : List (String × String × String))
    (k : String) (e : Extracted), k ∉ m.map Prod.fst →
    es.find? (fun x => x.series_name == k) = some e →
    (k, e.ep_year, e.ep_month) ∈ buildAux m es
  | [], _, _, _, _, hf => by simp [List.find?] at hf
  | e0 :: es, m, k, e, hk, hf => by
    rw [show buildAux m (e0 :: es) =
        buildAux (insertSeries m e0.series_name e0.ep_year e0.ep_month) es from rfl]
    by_cases hc : (e0.series_name == k) = true
    · have hfc : List.find? (fun x => x.series_name == k) (e0 :: es) = some e0 :=
        List.find?_cons_of_pos _ hc
      have he : e0 = e := Option.some.inj (hfc.symm.trans hf)
      subst he
      have hk0 : e0.series_name = k := beq_iff_eq.mp hc
      have hany : ¬ m.any (fun x => x.1 == e0.series_name) = true := by
        intro ha
        rcases List.any_eq_true.mp ha with ⟨x, hx, hxe⟩
        exact hk (hk0 ▸ List.mem_map.mpr ⟨x, hx, beq_iff_eq.mp hxe⟩)
      have hmem : (k, e0.ep_year, e0.ep_month) ∈
          insertSeries m e0.series_name e0.ep_year e0.ep_month := by
        unfold insertSeries
        rw [if_neg hany, hk0]
        exact List.mem_append_right _ (List.mem_singleton.mpr rfl)
      exact buildAux_sub es _ _ hmem
    · rw [List.find?_cons_of_neg _ (by simpa using hc)] at hf
      refine buildAux_first es _ k e (fun hmem => ?_) hf
      rcases (insertSeries_keys_mem m e0.series_name e0.ep_year e0.ep_month k).mp hmem with h | h
      · exact hk h
      · exact hc (beq_iff_eq.mpr h.symm)

/-! ### Development lemmas: the series table and the load pass -/

theorem seriesTable_strip : ∀ (n : Nat) (o : List (String × String × String)),
    (seriesTable n o).map stripSeries = o
  | _, [] => rfl
  | n, (k, y, m) :: rest => by
    simp [seriesTable, stripSeries, seriesTable_strip (n + 1) rest]

theorem seriesTable_names : ∀ (n : Nat) (o : List (String × String × String)),
    (seriesTable n o).map SeriesRow.series_name = o.map Prod.fst
  | _, [] => rfl
  | n, (k, y, m) :: rest => by
    simp [seriesTable, seriesTable_names (n + 1) rest]

theorem seriesTable_length : ∀ (n : Nat) (o : List (String × String × String)),
    (seriesTable n o).length = o.length
  | _, [] => rfl
  | n, _ :: rest => by
    simp [seriesTable, seriesTable_length (n + 1) rest]

theorem seriesTable_ids : ∀ (n : Nat) (o : List (String × String × String)),
    (seriesTable n o).map SeriesRow.id = List.range' n o.length
  | _, [] => rfl
  | n, (k, y, m) :: rest => by
    simp [seriesTable, seriesTable_ids (n + 1) rest, List.range']

theorem seriesTable_id_ge : ∀ (n : Nat) (o : List (String × String × String)) (r : SeriesRow),
    r ∈ seriesTable n o → n ≤ r.id
  | _, [], r, h => absurd h (List.not_mem_nil r)
  | n, (k, y, m) :: rest, r, h => by
    rcases List.mem_cons.mp h with rfl | h'
    · exact le_refl n
    · exact le_trans (Nat.le_succ n) (seriesTable_id_ge (n + 1) rest r h')

theorem seriesTable_find_id : ∀ (n : Nat) (o : List (String × String × String)) (r : SeriesRow),
    r ∈ seriesTable n o → (seriesTable n o).find? (fun s => s.id == r.id) = some r
  | _, [], r, h => absurd h (List.not_mem_nil r)
  | n, (k, y, m) :: rest, r, h => by
    rcases List.mem_cons.mp h with rfl | h'
    · exact List.find?_cons_of_pos _ (by simp)
    · have hgt : n + 1 ≤ r.id := seriesTable_id_ge (n + 1) rest r h'
      rw [show seriesTable n ((k, y, m) :: rest) =
          (⟨n, k, y, m⟩ : SeriesRow) :: seriesTable (n + 1) rest from rfl,
        List.find?_cons_of_neg _ (by simp; omega)]
      exact seriesTable_find_id (n + 1) rest r h'

theorem seriesTable_find_name (k : String) : ∀ (n : Nat) (o : List (String × String × String)),
    Option.map stripSeries ((seriesTable n o).find? (fun r => r.series_name == k)) =
      o.find? (fun x => x.1 == k)
  | _, [] => rfl
  | n, (nm, y, m) :: rest => by
    rw [show seriesTable n ((nm, y, m) :: rest) =
        (⟨n, nm, y, m⟩ : SeriesRow) :: seriesTable (n + 1) rest from rfl]
    by_cases hc : (nm == k) = true
    · have hA : ((⟨n, nm, y, m⟩ : SeriesRow) :: seriesTable (n + 1) rest).find?
          (fun r => r.series_name == k) = some ⟨n, nm, y, m⟩ :=
        List.find?_cons_of_pos _ hc
      have hB : ((nm, y, m) :: rest).find? (fun x => x.1 == k) = some (nm, y, m) :=
        List.find?_cons_of_pos _ hc
      rw [hA, hB]
      rfl
    · have hA : ((⟨n, nm, y, m⟩ : SeriesRow) :: seriesTable (n + 1) rest).find?
          (fun r => r.series_name == k) = (seriesTable (n + 1) rest).find?
          (fun r => r.series_name == k) :=
        List.find?_cons_of_neg _ (by simpa using hc)
      have hB : ((nm, y, m) :: rest).find? (fun x => x.1 == k) = rest.find? (fun x => x.1 == k) :=
        List.find?_cons_of_neg _ (by simpa using hc)
      rw [hA, hB]
      exact seriesTable_find_name k (n + 1) rest

theorem lookupSeries_some {t : List SeriesRow} {k : String} {sid : Nat}
    (h : lookupSeries t k = some sid) :
    ∃ r, t.find? (fun r => r.series_name == k) = some r ∧ r.id = sid := by
  unfold lookupSeries at h
  cases hf : t.find? (fun r => r.series_name == k) with
  | none => rw [hf] at h; exact absurd h (by simp)
  | some r =>
    rw [hf] at h
    exact ⟨r, rfl, Option.some.inj h⟩

theorem lookupSeries_isSome (o : List (String × String × String)) (k : String) (n : Nat) :
    (lookupSeries (seriesTable n o) k).isSome = (o.find? (fun x => x.1 == k)).isSome := by
  unfold lookupSeries
  rw [← seriesTable_find_name k n o]
  cases hf : (seriesTable n o).find? (fun r => r.series_name == k) <;> simp [hf]

theorem insertEps_some_iff : ∀ (st : List SeriesRow) (n : Nat) (es : List Extracted),
    (insertEps st n es).isSome = true ↔
      ∀ e ∈ es, (lookupSeries st (clean_series_name e.series_name)).isSome = true
  | st, n, [] => by simp [insertEps]
  | st, n, e :: es => by
    cases hl : lookupSeries st (clean_series_name e.series_name) with
    | none =>
      rw [show insertEps st n (e :: es) = none by unfold insertEps; rw [hl]]
      constructor
      · intro h
        exact absurd h (by simp)
      · intro h
        have := h e (List.mem_cons_self e es)
        rw [hl] at this
        exact absurd this (by simp)
    | some sid =>
      cases hr : insertEps st (n + 1) es with
      | none =>
        rw [show insertEps st n (e :: es) = none by unfold insertEps; rw [hl, hr]]
        have ih := insertEps_some_iff st (n + 1) es
        rw [hr] at ih
        constructor
        · intro h
          exact absurd h (by simp)
        · intro h
          exact absurd (ih.mpr fun e' he' => h e' (List.mem_cons_of_mem e he')) (by simp)
      | some rest =>
        rw [show insertEps st n (e :: es) =
            some (⟨n, e.series_name, e.ep_num, e.ep_year, e.ep_month, sid, e.abstract_text⟩ :: rest)
          by unfold insertEps; rw [hl, hr]]
        constructor
        · intro _ e' he'
          rcases List.mem_cons.mp he' with rfl | h'
          · rw [hl]
            rfl
          · exact (insertEps_some_iff st (n + 1) es).mp (by rw [hr]; rfl) e' h'
        · intro _
          rfl

theorem insertEps_mem : ∀ (st : List SeriesRow) (n : Nat) (es : List Extracted) (eps : List EpRow),
    insertEps st n es = some eps → ∀ ep ∈ eps,
      ∃ e, e ∈ es ∧ ep.ep_name = e.series_name ∧ ep.ep_num = e.ep_num ∧
        ep.ep_year = e.ep_year ∧ ep.ep_month = e.ep_month ∧ ep.abstract = e.abstract_text ∧
        lookupSeries st (clean_series_name e.series_name) = some ep.series_id
  | st, n, [], eps, h => by
    have : ([] : List EpRow) = eps := Option.some.inj h
    subst this
    intro ep hep
    exact absurd hep (List.not_mem_nil ep)
  | st, n, e :: es, eps, h => by
    unfold insertEps at h
    cases hl : lookupSeries st (clean_series_name e.series_name) with
    | none => rw [hl] at h; exact absurd h (by simp)
    | some sid =>
      rw [hl] at h
      cases hr : insertEps st (n + 1) es with
      | none => rw [hr] at h; exact absurd h (by simp)
      | some rest =>
        rw [hr] at h
        have heq : (⟨n, e.series_name, e.ep_num, e.ep_year, e.ep_month, sid, e.abstract_text⟩ :: rest)
            = eps := Option.some.inj h
        subst heq
        intro ep hep
        rcases List.mem_cons.mp hep with rfl | h'
        · exact ⟨e, List.mem_cons_self e es, rfl, rfl, rfl, rfl, rfl, by rw [hl]⟩
        · rcases insertEps_mem st (n + 1) es rest hr ep h' with ⟨e', he', rest'⟩
          exact ⟨e', List.mem_cons_of_mem e he', rest'⟩

theorem insertEps_ids : ∀ (st : List SeriesRow) (n : Nat) (es : List Extracted) (eps : List EpRow),
    insertEps st n es = some eps →
    eps.map EpRow.id = List.range' n es.length ∧ eps.length = es.length
  | st, n, [], eps, h => by
    have : ([] : List EpRow) = eps := Option.some.inj h
    subst this
    exact ⟨rfl, rfl⟩
  | st, n, e :: es, eps, h => by
    unfold insertEps at h
    cases hl : lookupSeries st (clean_series_name e.series_name) with
    | none => rw [hl] at h; exact absurd h (by simp)
    | some sid =>
      rw [hl] at h
      cases hr : insertEps st (n + 1) es with
      | none => rw [hr] at h; exact absurd h (by simp)
      | some rest =>
        rw [hr] at h
        have heq : (⟨n, e.series_name, e.ep_num, e.ep_year, e.ep_month, sid, e.abstract_text⟩ :: rest)
            = eps := Option.some.inj h
        subst heq
        obtain ⟨ih1, ih2⟩ := insertEps_ids st (n + 1) es rest hr
        constructor
        · simp only [List.map_cons, List.length_cons, List.range', ih1]
        · simp [ih2]

theorem insertEps_deref (o : List (String × String × String)) :
    ∀ (n : Nat) (es : List Extracted) (eps : List EpRow),
    insertEps (seriesTable 1 o) n es = some eps →
    derefEps (seriesTable 1 o) eps =
      es.map (fun e => (e.series_name, e.ep_num, e.ep_year, e.ep_month,
        o.find? (fun x => x.1 == clean_series_name e.series_name), e.abstract_text))
  | n, [], eps, h => by
    have : ([] : List EpRow) = eps := Option.some.inj h
    subst this
    rfl
  | n, e :: es, eps, h => by
    unfold insertEps at h
    cases hl : lookupSeries (seriesTable 1 o) (clean_series_name e.series_name) with
    | none => rw [hl] at h; exact absurd h (by simp)
    | some sid =>
      rw [hl] at h
      cases hr : insertEps (seriesTable 1 o) (n + 1) es with
      | none => rw [hr] at h; exact absurd h (by simp)
      | some rest =>
        rw [hr] at h
        have heq : (⟨n, e.series_name, e.ep_num, e.ep_year, e.ep_month, sid, e.abstract_text⟩ :: rest)
            = eps := Option.some.inj h
        subst heq
        obtain ⟨r, hfind, hid⟩ := lookupSeries_some hl
        have hr_mem : r ∈ seriesTable 1 o := List.mem_of_find?_eq_some hfind
        have hfid : (seriesTable 1 o).find? (fun s => s.id == sid) = some r := by
          rw [← hid]
          exact seriesTable_find_id 1 o r hr_mem
        have hentry : o.find? (fun x => x.1 == clean_series_name e.series_name) =
            some (stripSeries r) := by
          rw [← seriesTable_find_name, hfind]
          rfl
        simp only [derefEps, List.map_cons]
        rw [← derefEps]
        rw [insertEps_deref o (n + 1) es rest hr]
        simp only [hfid, hentry]
        rfl

theorem find?_key_perm {l1 l2 : List (String × String × String)} (hp : l1.Perm l2)
    (hn : (l1.map Prod.fst).Nodup) (k : String) :
    l1.find? (fun x => x.1 == k) = l2.find? (fun x => x.1 == k) := by
  by_cases hex : ∃ x ∈ l1, x.1 = k
  · obtain ⟨x, hx, hxk⟩ := hex
    have h1 : l1.find? (fun x => x.1 == k) ≠ none := by
      intro hnone
      have := List.find?_eq_none.mp hnone x hx
      simp [hxk] at this
    have h2 : l2.find? (fun x => x.1 == k) ≠ none := by
      intro hnone
      have := List.find?_eq_none.mp hnone x (hp.mem_iff.mp hx)
      simp [hxk] at this
    obtain ⟨y, hy⟩ := Option.ne_none_iff_exists'.mp h1
    obtain ⟨z, hz⟩ := Option.ne_none_iff_exists'.mp h2
    have hy_mem := List.mem_of_find?_eq_some hy
    have hz_mem := hp.mem_iff.mpr (List.mem_of_find?_eq_some hz)
    have hy_k : y.1 = k := by
      have := List.find?_some hy
      simpa using this
    have hz_k : z.1 = k := by
      have := List.find?_some hz
      simpa using this
    have hyz : y = z := List.inj_on_of_nodup_map hn hy_mem hz_mem (by rw [hy_k, hz_k])
    rw [hy, hz, hyz]
  · push_neg at hex
    rw [List.find?_eq_none.mpr fun a ha => by simp [hex a ha],
      List.find?_eq_none.mpr fun a ha => by simp [hex a (hp.mem_iff.mpr ha)]]

theorem runTables_some {files : List (String × String)} {o : List (String × String × String)}
    {st : List SeriesRow} {eps : List EpRow} (h : runTables files o = some (st, eps)) :
    st = seriesTable 1 o ∧
    insertEps (seriesTable 1 o) 1 (extractAll (sortFiles files)) = some eps := by
  unfold runTables at h
  cases hi : insertEps (seriesTable 1 o) 1 (extractAll (sortFiles files)) with
  | none => rw [hi] at h; exact absurd h (by simp)
  | some eps' =>
    rw [hi] at h
    have := Option.some.inj h
    obtain ⟨h1, h2⟩ := Prod.mk.injEq _ _ _ _ ▸ this
    exact ⟨h1.symm, congrArg some h2⟩

theorem runTables_isSome (files : List (String × String)) (o : List (String × String × String)) :
    (runTables files o).isSome =
      (insertEps (seriesTable 1 o) 1 (extractAll (sortFiles files))).isSome := by
  unfold runTables
  cases hi : insertEps (seriesTable 1 o) 1 (extractAll (sortFiles files)) <;> simp [hi]

theorem mem_dropWs_of_mem {c : Char} (hc : c.isWhitespace = false) :
    ∀ l : List Char, c ∈ l → c ∈ dropWs l
  | [], h => absurd h (List.not_mem_nil c)
  | x :: xs, h => by
    by_cases hx : x.isWhitespace = true
    · rw [dropWs_cons_ws hx]
      rcases List.mem_cons.mp h with rfl | h'
      · rw [hc] at hx
        exact absurd hx (by simp)
      · exact mem_dropWs_of_mem hc xs h'
    · rw [show dropWs (x :: xs) = x :: xs by unfold dropWs; rw [if_neg hx]]
      exact h

theorem mem_trimList_of_mem {c : Char} (hc : c.isWhitespace = false) {l : List Char}
    (h : c ∈ l) : c ∈ trimList l := by
  unfold trimList trimRight
  rw [List.mem_reverse]
  apply mem_dropWs_of_mem hc
  rw [List.mem_reverse]
  exact mem_dropWs_of_mem hc l h

theorem lastSpaceIdx_lt : ∀ (l : List Char) (i : Nat), lastSpaceIdx l = some i → i < l.length
  | [], i, h => by simp [lastSpaceIdx] at h
  | c :: cs, i, h => by
    unfold lastSpaceIdx at h
    cases hcs : lastSpaceIdx cs with
    | some j =>
      rw [hcs] at h
      have hj : j + 1 = i := Option.some.inj h
      subst hj
      have := lastSpaceIdx_lt cs j hcs
      simp only [List.length_cons]
      omega
    | none =>
      rw [hcs] at h
      by_cases hc : (c == ' ') = true
      · rw [if_pos hc] at h
        have h0 : (0 : Nat) = i := Option.some.inj h
        subst h0
        simp
      · rw [if_neg hc] at h
        exact absurd h (by simp)

theorem clean_of_md_suffix (b l : List Char) (hb : l = b ++ ('.' :: 'm' :: 'd' :: [])) :
    clean_series_name (String.mk l) = String.mk l := by
  cases hls : lastSpaceIdx l with
  | none =>
    unfold clean_series_name
    rw [show (String.mk l).data = l from rfl, hls]
  | some i =>
    have hlt : i < l.length := lastSpaceIdx_lt l i hls
    have hd_mem : 'd' ∈ l.drop i := by
      have hlen : l.length = b.length + 3 := by
        rw [hb]
        simp
      have hi_le : i ≤ (b ++ ['.', 'm']).length := by
        simp only [List.length_append, List.length_cons, List.length_nil]
        omega
      have hsplit : l = (b ++ ['.', 'm']) ++ ['d'] := by
        rw [hb]
        simp
      rw [hsplit, List.drop_append_of_le_length hi_le]
      exact List.mem_append_right _ (List.mem_singleton.mpr rfl)
    have hne : ¬ ((trimList (l.drop i)).all (fun c => c.isDigit || c == '.') = true) := by
      intro hall
      have hd_t : 'd' ∈ trimList (l.drop i) := mem_trimList_of_mem (by decide) hd_mem
      have := List.all_eq_true.mp hall 'd' hd_t
      simp at this
    unfold clean_series_name
    rw [show (String.mk l).data = l from rfl, hls]
    show (if ((trimList (l.drop i)).all fun c => c.isDigit || c == '.') = true
        then String.mk (trimList (l.take i)) else String.mk l) = String.mk l
    rw [if_neg hne]

/-! ### Claims C1, C2, C8, C9 -/

/-- C1: after a successful full run (the series-insertion iteration order
being any permutation of the consolidation map), every inserted episode row's
`series_id` is the identifier of exactly one series row whose `series_name`
equals `clean_series_name` of the episode's stored `ep_name`. -/
theorem claim_C1 (files : List (String × String)) (o : List (String × String × String))
    (st : List SeriesRow) (eps : List EpRow)
    (hperm : o.Perm (seriesMapOf files)) (hrun : runTables files o = some (st, eps)) :
    ∀ ep ∈ eps, ∃ s, s ∈ st ∧ s.series_name = clean_series_name ep.ep_name ∧
      ep.series_id = s.id ∧
      ∀ s', s' ∈ st → s'.series_name = clean_series_name ep.ep_name → s' = s := by
  obtain ⟨rfl, hins⟩ := runTables_some hrun
  have hkeys : ((seriesMapOf files).map Prod.fst).Nodup :=
    buildAux_keys_nodup _ [] (by simp)
  have honodup : (o.map Prod.fst).Nodup := ((hperm.map Prod.fst).nodup_iff).mpr hkeys
  have hnames : ((seriesTable 1 o).map SeriesRow.series_name).Nodup := by
    rw [seriesTable_names]
    exact honodup
  intro ep hep
  obtain ⟨e, he, hname, _, _, _, _, hlook⟩ := insertEps_mem _ _ _ _ hins ep hep
  rw [← hname] at hlook
  obtain ⟨r, hfind, hid⟩ := lookupSeries_some hlook
  have hr_mem : r ∈ seriesTable 1 o := List.mem_of_find?_eq_some hfind
  have hr_name : r.series_name = clean_series_name ep.ep_name := by
    have := List.find?_some hfind
    simpa using this
  exact ⟨r, hr_mem, hr_name, hid.symm, fun s' hs' hs'name =>
    List.inj_on_of_nodup_map hnames hs' hr_mem (by rw [hs'name, hr_name])⟩

/-- C1 witness: one file `A_01.md` with title `Show 1` yields the series row
`(1, Show)` and one episode whose foreign key resolves to it uniquely. -/
theorem witness_C1 :
    ∃ s, s ∈ ([⟨1, "Show", "", ""⟩] : List SeriesRow) ∧
      s.series_name = clean_series_name
        (EpRow.ep_name ⟨1, "Show", "01", "", "", 1, ""⟩) ∧
      EpRow.series_id ⟨1, "Show", "01", "", "", 1, ""⟩ = s.id ∧
      ∀ s', s' ∈ ([⟨1, "Show", "", ""⟩] : List SeriesRow) →
        s'.series_name = clean_series_name
          (EpRow.ep_name ⟨1, "Show", "01", "", "", 1, ""⟩) → s' = s :=
  claim_C1 [("A_01.md", "title: \"Show 1\"")] [("Show", "", "")]
    [⟨1, "Show", "", ""⟩] [⟨1, "Show", "01", "", "", 1, ""⟩]
    (by
      have he : seriesMapOf [("A_01.md", "title: \"Show 1\"")] = [("Show", "", "")] := by decide
      rw [he])
    (by decide) ⟨1, "Show", "01", "", "", 1, ""⟩ (by simp)

/-- C2 (amended): `ep_name` stores the series name exactly as extraction
computed it — for filenames with at least two `_` segments that is the
already-cleaned resolved title, not the uncleaned one — and the foreign key is
resolved by applying `clean_series_name` to that stored (already clean) name. -/
theorem claim_C2 (files : List (String × String)) (o : List (String × String × String))
    (st : List SeriesRow) (eps : List EpRow)
    (hrun : runTables files o = some (st, eps)) :
    (∀ ep ∈ eps, (∃ f ∈ sortFiles files, ep.ep_name = (processFile f.1 f.2).series_name) ∧
      lookupSeries st (clean_series_name ep.ep_name) = some ep.series_id) ∧
    (∀ fn c : String, 2 ≤ (splitOnChar '_' fn.data).length →
      (processFile fn c).series_name = clean_series_name (resolvedTitle fn c)) := by
  obtain ⟨rfl, hins⟩ := runTables_some hrun
  refine ⟨fun ep hep => ?_, fun fn c h2 => ?_⟩
  · obtain ⟨e, he, hname, _, _, _, _, hlook⟩ := insertEps_mem _ _ _ _ hins ep hep
    simp only [extractAll] at he
    constructor
    · obtain ⟨f, hf, rfl⟩ := List.mem_map.mp he
      exact ⟨f, hf, hname⟩
    · rw [hname]
      exact hlook
  · rw [processFile_series_name]
    simp only [seriesAndNum]
    rw [if_pos h2]

/-- C2 witness: in the single-file run for `A_01.md` with title `Show 1`, the
stored `ep_name` is an extraction output and the lookup key is its re-clean. -/
theorem witness_C2 :
    ((∃ f ∈ sortFiles [("A_01.md", "title: \"Show 1\"")],
        EpRow.ep_name ⟨1, "Show", "01", "", "", 1, ""⟩ = (processFile f.1 f.2).series_name) ∧
      lookupSeries ([⟨1, "Show", "", ""⟩] : List SeriesRow)
        (clean_series_name (EpRow.ep_name ⟨1, "Show", "01", "", "", 1, ""⟩)) =
        some (EpRow.series_id ⟨1, "Show", "01", "", "", 1, ""⟩)) :=
  (claim_C2 [("A_01.md", "title: \"Show 1\"")] [("Show", "", "")]
    [⟨1, "Show", "", ""⟩] [⟨1, "Show", "01", "", "", 1, ""⟩] (by decide)).1
    ⟨1, "Show", "01", "", "", 1, ""⟩ (by simp)

/-- C2 counterexample: the raw title of `A_01.md` is `Show 1`, but the
persisted `ep_name` is the cleaned `Show` — the uncleaned series name is not
what the episode row stores. -/
theorem counterexample_C2 :
    Option.map String.mk (extract_title ("title: \"Show 1\"".data)) = some "Show 1" ∧
    clean_series_name "Show 1" = "Show" ∧
    runTables [("A_01.md", "title: \"Show 1\"")] [("Show", "", "")] =
      some ([⟨1, "Show", "", ""⟩], [⟨1, "Show", "01", "", "", 1, ""⟩]) ∧
    ("Show" : String) ≠ "Show 1" := by decide

/-- C8: files are processed in ascending filename order (the sorted sequence
is a sorted permutation of the input); the consolidation map has pairwise
distinct keys, its key set is exactly the set of series names produced by
extraction, the `(year, month)` stored for a key are those of the first
extracted episode bearing it, and for `.md`-named files the extracted series
name is precisely the cleaned raw series name. -/
theorem claim_C8 (files : List (String × String)) :
    (sortFiles files).Perm files ∧
    List.Sorted fileLe (sortFiles files) ∧
    ((seriesMapOf files).map Prod.fst).Nodup ∧
    (∀ k : String, k ∈ (seriesMapOf files).map Prod.fst ↔
      ∃ e ∈ extractAll (sortFiles files), e.series_name = k) ∧
    (∀ (k : String) (e : Extracted),
      (extractAll (sortFiles files)).find? (fun x => x.series_name == k) = some e →
      (k, e.ep_year, e.ep_month) ∈ seriesMapOf files) ∧
    (∀ f ∈ files, (∃ b, f.1.data = b ++ ('.' :: 'm' :: 'd' :: [])) →
      (processFile f.1 f.2).series_name = clean_series_name (rawSeriesName f.1 f.2)) := by
  refine ⟨List.perm_insertionSort fileLe files, List.sorted_insertionSort fileLe files,
    buildAux_keys_nodup _ [] (by simp), fun k => ?_, fun k e hf => ?_, fun f hf hmd => ?_⟩
  · unfold seriesMapOf buildSeriesMap
    rw [buildAux_keys_mem]
    simp
  · exact buildAux_first _ [] k e (by simp) hf
  · obtain ⟨b, hb⟩ := hmd
    by_cases h2 : 2 ≤ (splitOnChar '_' f.1.data).length
    · rw [processFile_series_name]
      simp only [seriesAndNum]
      rw [if_pos h2]
      unfold rawSeriesName
      rw [if_pos h2]
    · rw [processFile_series_name]
      simp only [seriesAndNum]
      rw [if_neg h2]
      unfold rawSeriesName
      rw [if_neg h2]
      exact (clean_of_md_suffix b f.1.data hb).symm

/-- C8 witness: the spec's end-to-end example — two files whose titles clean
to `Show A` — produces exactly the entry `(Show A, 2024, 01)`, the year and
month of the first file in sorted order. -/
theorem witness_C8 :
    ("Show A", "2024", "01") ∈ seriesMapOf
      [("Show A_01_x.md", "title: \"Show A\"\ntags: [t, 202401]"),
       ("Show A_02_x.md", "title: \"Show A 2\"\ntags: [t, 202402]")] :=
  (claim_C8 [("Show A_01_x.md", "title: \"Show A\"\ntags: [t, 202401]"),
      ("Show A_02_x.md", "title: \"Show A 2\"\ntags: [t, 202402]")]).2.2.2.2.1
    "Show A" ⟨"Show A", "01", "2024", "01", ""⟩ (by decide)

/-- C9: two runs over the same files whose series-insertion orders are both
permutations of the consolidation map (the model of `HashMap` iteration)
succeed or fail together, restart every auto-increment identifier at 1, agree
on the series rows up to identifier assignment, and agree exactly on the
episode table once each `series_id` is dereferenced to the series row content
it names. -/
theorem claim_C9 (files : List (String × String)) (o1 o2 : List (String × String × String))
    (h1 : o1.Perm (seriesMapOf files)) (h2 : o2.Perm (seriesMapOf files)) :
    ((runTables files o1).isSome = (runTables files o2).isSome) ∧
    (∀ st1 eps1 st2 eps2, runTables files o1 = some (st1, eps1) →
      runTables files o2 = some (st2, eps2) →
      (st1.map stripSeries).Perm (st2.map stripSeries) ∧
      st1.map SeriesRow.id = List.range' 1 st1.length ∧
      st2.map SeriesRow.id = List.range' 1 st2.length ∧
      eps1.map EpRow.id = List.range' 1 eps1.length ∧
      eps2.map EpRow.id = List.range' 1 eps2.length ∧
      derefEps st1 eps1 = derefEps st2 eps2) := by
  have hkeys : ((seriesMapOf files).map Prod.fst).Nodup :=
    buildAux_keys_nodup _ [] (by simp)
  have hn1 : (o1.map Prod.fst).Nodup := ((h1.map Prod.fst).nodup_iff).mpr hkeys
  have hn2 : (o2.map Prod.fst).Nodup := ((h2.map Prod.fst).nodup_iff).mpr hkeys
  have hfind12 : ∀ k, o1.find? (fun x => x.1 == k) = o2.find? (fun x => x.1 == k) :=
    fun k => (find?_key_perm h1 hn1 k).trans (find?_key_perm h2 hn2 k).symm
  constructor
  · rw [runTables_isSome, runTables_isSome]
    have hiff : (insertEps (seriesTable 1 o1) 1 (extractAll (sortFiles files))).isSome = true ↔
        (insertEps (seriesTable 1 o2) 1 (extractAll (sortFiles files))).isSome = true := by
      rw [insertEps_some_iff, insertEps_some_iff]
      constructor <;> intro h e he
      · have := h e he
        rwa [lookupSeries_isSome, hfind12, ← lookupSeries_isSome] at this
      · have := h e he
        rwa [lookupSeries_isSome, ← hfind12, ← lookupSeries_isSome] at this
    cases hA : (insertEps (seriesTable 1 o1) 1 (extractAll (sortFiles files))).isSome <;>
      cases hB : (insertEps (seriesTable 1 o2) 1 (extractAll (sortFiles files))).isSome <;>
      simp_all
  · intro st1 eps1 st2 eps2 hr1 hr2
    obtain ⟨rfl, hins1⟩ := runTables_some hr1
    obtain ⟨rfl, hins2⟩ := runTables_some hr2
    obtain ⟨hid1, hlen1⟩ := insertEps_ids _ _ _ _ hins1
    obtain ⟨hid2, hlen2⟩ := insertEps_ids _ _ _ _ hins2
    refine ⟨?_, ?_, ?_, ?_, ?_, ?_⟩
    · rw [seriesTable_strip, seriesTable_strip]
      exact h1.trans h2.symm
    · rw [seriesTable_ids, seriesTable_length]
    · rw [seriesTable_ids, seriesTable_length]
    · rw [hid1, hlen1]
    · rw [hid2, hlen2]
    · rw [insertEps_deref o1 _ _ _ hins1, insertEps_deref o2 _ _ _ hins2]
      exact List.map_congr_left fun e _ => by rw [hfind12]

/-- C9 witness: two series inserted in opposite orders give series tables that
are permutations of each other after dropping identifiers, and identical
episode tables once foreign keys are dereferenced. -/
theorem witness_C9 :
    derefEps ([⟨1, "A", "", ""⟩, ⟨2, "B", "", ""⟩] : List SeriesRow)
        ([⟨1, "A", "01", "", "", 1, ""⟩, ⟨2, "B", "01", "", "", 2, ""⟩] : List EpRow) =
      derefEps ([⟨1, "B", "", ""⟩, ⟨2, "A", "", ""⟩] : List SeriesRow)
        ([⟨1, "A", "01", "", "", 2, ""⟩, ⟨2, "B", "01", "", "", 1, ""⟩] : List EpRow) ∧
    (([⟨1, "A", "", ""⟩, ⟨2, "B", "", ""⟩] : List SeriesRow).map stripSeries).Perm
      (([⟨1, "B", "", ""⟩, ⟨2, "A", "", ""⟩] : List SeriesRow).map stripSeries) := by
  have h := (claim_C9 [("A_01.md", ""), ("B_01.md", "")]
    [("A", "", ""), ("B", "", "")] [("B", "", ""), ("A", "", "")]
    (by
      have he : seriesMapOf [("A_01.md", ""), ("B_01.md", "")] =
          [("A", "", ""), ("B", "", "")] := by decide
      rw [he])
    (by
      have he : seriesMapOf [("A_01.md", ""), ("B_01.md", "")] =
          [("A", "", ""), ("B", "", "")] := by decide
      rw [he]
      exact List.Perm.swap ("A", "", "") ("B", "", "") [])).2
    [⟨1, "A", "", ""⟩, ⟨2, "B", "", ""⟩]
    [⟨1, "A", "01", "", "", 1, ""⟩, ⟨2, "B", "01", "", "", 2, ""⟩]
    [⟨1, "B", "", ""⟩, ⟨2, "A", "", ""⟩]
    [⟨1, "A", "01", "", "", 2, ""⟩, ⟨2, "B", "01", "", "", 1, ""⟩]
    (by decide) (by decide)
  exact ⟨h.2.2.2.2.2, h.1⟩

end EplotDC
